import Mathlib

/- Shallow embedding of the rsbtc core library.

   Sources embedded:
   - src/lib/src/lib.rs     : the U256 integer type (construct_uint, 4 x 64-bit words)
   - src/lib/src/sha256.rs  : Hash, Hash::matches_target, Hash::zero
   - src/lib/src/types.rs   : Blockchain, Block, BlockHeader, Transaction,
                              TransactionInput, TransactionOutput,
                              Blockchain::add_block, Blockchain::rebuild_utxos,
                              Block::verify_transactions
   - src/lib/src/crypto.rs  : PublicKey / Signature are opaque elliptic-curve values;
                              the embedding abstracts them as type parameters and the
                              verification predicate as a function parameter.

   The cryptographic digest (Hash::hash, which CBOR-serializes a value and runs
   SHA-256 over it) and ECDSA signature verification are not re-implemented;
   the development is parametric in them through the CryptoPrims bundle.
   Machine integers are modelled as Nat; the u64 additions performed by
   Block::verify_transactions wrap modulo 2 ^ 64 (release-profile overflow
   semantics of the source language).

   The modules util (MerkleRoot) and error (BtcError) are declared by lib.rs /
   imported by types.rs but their source files are not present; those two items
   are modelled from the spec and are marked as such below. -/

namespace Rsbtc

/- lib.rs, construct_uint U256(4): an unsigned 256-bit integer. Only literal
   values and the order comparison are used by the embedded code, so it is
   modelled as Nat (values of the program always lie below 2 ^ 256). -/
abbrev U256 := Nat

/- sha256.rs: pub struct Hash(U256) -/
structure Hash where
  val : U256
deriving DecidableEq, Repr

/- sha256.rs, Hash::matches_target: self.0 <= target -/
def Hash.matches_target (h : Hash) (target : U256) : Bool :=
  decide (h.val ≤ target)

/- sha256.rs, Hash::zero: Hash(U256::zero()) -/
def Hash.zero : Hash := ⟨0⟩

/-- Modelled from the spec: the type `MerkleRoot` lives in src/lib/src/util.rs,
which is not among the provided sources. Per spec sections 4.3 and 3, a Merkle
root is a single 256-bit Hash committing to an ordered list of transactions. -/
abbrev MerkleRoot := Hash

/-- Modelled from the spec: the enum `BtcError` lives in src/lib/src/error.rs,
which is not among the provided sources. Spec section 7 lists the error kinds
InvalidBlock, InvalidMerkleRoot and InvalidTransaction. -/
inductive BtcError where
  | InvalidBlock
  | InvalidMerkleRoot
  | InvalidTransaction
deriving DecidableEq, Repr

/- types.rs: pub struct TransactionOutput. The value field is a u64 amount, the
   unique_id is a 128-bit Uuid; both are modelled as Nat. The pubkey is an
   opaque elliptic-curve public key (crypto.rs), abstracted as a type parameter. -/
structure TransactionOutput (PubKey : Type) where
  value : Nat
  unique_id : Nat
  pubkey : PubKey
deriving DecidableEq

/- types.rs: pub struct TransactionInput. The signature is an opaque ECDSA
   signature (crypto.rs), abstracted as a type parameter. -/
structure TransactionInput (Sig : Type) where
  prev_transaction_output_hash : Hash
  signature : Sig
deriving DecidableEq

/- types.rs: pub struct Transaction -/
structure Transaction (Sig PubKey : Type) where
  inputs : List (TransactionInput Sig)
  outputs : List (TransactionOutput PubKey)
deriving DecidableEq

/- types.rs: pub struct BlockHeader. The chrono timestamp is used only through
   its total order, modelled as Int. The nonce is a u64. -/
structure BlockHeader where
  timestamp : Int
  nonce : Nat
  prev_block_hash : Hash
  merkle_root : MerkleRoot
  target : U256
deriving DecidableEq

/- types.rs: pub struct Block -/
structure Block (Sig PubKey : Type) where
  header : BlockHeader
  transactions : List (Transaction Sig PubKey)
deriving DecidableEq

/- types.rs: HashMap<Hash, TransactionOutput>, modelled extensionally as a
   partial map from Hash to TransactionOutput. -/
def UtxoMap (PubKey : Type) := Hash → Option (TransactionOutput PubKey)

def UtxoMap.empty {PubKey : Type} : UtxoMap PubKey := fun _ => none

def UtxoMap.insert {PubKey : Type} (m : UtxoMap PubKey) (k : Hash)
    (v : TransactionOutput PubKey) : UtxoMap PubKey :=
  fun h => if h = k then some v else m h

def UtxoMap.remove {PubKey : Type} (m : UtxoMap PubKey) (k : Hash) : UtxoMap PubKey :=
  fun h => if h = k then none else m h

def UtxoMap.contains_key {PubKey : Type} (m : UtxoMap PubKey) (k : Hash) : Bool :=
  (m k).isSome

/- types.rs: pub struct Blockchain -/
structure Blockchain (Sig PubKey : Type) where
  utxos : UtxoMap PubKey
  blocks : List (Block Sig PubKey)

/- The cryptographic primitives the embedded code calls but does not define
   arithmetically: Hash::hash specialised at each serializable type
   (TransactionOutput::hash, BlockHeader::hash, Block::hash, Transaction::hash
   in types.rs all delegate to Hash::hash of sha256.rs), the Merkle pair
   combination hash (spec section 4.3), and Signature::verify of crypto.rs.
   The development is parametric in this bundle. -/
structure CryptoPrims (Sig PubKey : Type) where
  hashOutput : TransactionOutput PubKey → Hash
  hashHeader : BlockHeader → Hash
  hashBlock : Block Sig PubKey → Hash
  hashTransaction : Transaction Sig PubKey → Hash
  hashPair : Hash → Hash → Hash
  sigVerify : Sig → Hash → PubKey → Bool

/-- Modelled from the spec: one pairing level of the Merkle tree
(`MerkleRoot::calculate` lives in the missing src/lib/src/util.rs). Spec 4.3:
pair adjacent hashes left-to-right; if a level has an odd number of elements,
duplicate the last element before pairing. -/
def merklePairLevel {Sig PubKey : Type} (C : CryptoPrims Sig PubKey) :
    List Hash → List Hash
  | [] => []
  | [h] => [C.hashPair h h]
  | a :: b :: rest => C.hashPair a b :: merklePairLevel C rest

/-- Modelled from the spec: reduce a level of hashes to the root. Spec 4.3 and
8: an empty list gives the zero hash, a single hash is the root itself, and
otherwise the levels are reduced until exactly one hash remains. -/
def merkleReduce {Sig PubKey : Type} (C : CryptoPrims Sig PubKey)
    (hs : List Hash) : Hash :=
  match hs with
  | [] => Hash.zero
  | [h] => h
  | a :: b :: rest => merkleReduce C (merklePairLevel C (a :: b :: rest))
termination_by hs.length
decreasing_by
  have key : ∀ n (l : List Hash), l.length ≤ n →
      (merklePairLevel C l).length ≤ l.length := by
    intro n
    induction n with
    | zero =>
      intro l hl
      cases l with
      | nil => simp [merklePairLevel]
      | cons x xs => simp at hl
    | succ n ih =>
      intro l hl
      cases l with
      | nil => simp [merklePairLevel]
      | cons a l2 =>
        cases l2 with
        | nil => simp [merklePairLevel]
        | cons b rest2 =>
          have hr : (merklePairLevel C rest2).length ≤ rest2.length := by
            refine ih rest2 ?_
            simp at hl
            omega
          simp [merklePairLevel]
          omega
  have hk := key (rest.length) rest le_rfl
  simp [merklePairLevel]
  omega

/-- Modelled from the spec: `MerkleRoot::calculate(transactions)` of the missing
src/lib/src/util.rs. Spec 4.3: compute the per-transaction hash for each
transaction in order, then reduce the levels to a single root. -/
def MerkleRoot.calculate {Sig PubKey : Type} (C : CryptoPrims Sig PubKey)
    (transactions : List (Transaction Sig PubKey)) : MerkleRoot :=
  merkleReduce C (transactions.map C.hashTransaction)

/- Outcome of a call to Blockchain::add_block (&mut self receiver): Ok or Err
   together with the final state of the receiver, or a process panic
   (Option::unwrap on None, and the unimplemented macro). -/
inductive AddBlockResult (Sig PubKey : Type) where
  | ok (bc : Blockchain Sig PubKey)
  | err (e : BtcError) (bc : Blockchain Sig PubKey)
  | panicked

/- types.rs, Blockchain::add_block, translated line by line. Every validation
   check of the source sits inside the branch taken when self.blocks is empty;
   inside that branch, after the genesis zero-hash test, the source calls
   self.blocks.last().unwrap() while self.blocks is still empty, which panics,
   and the branch ends in the unimplemented macro. When self.blocks is
   non-empty the source runs no check at all and pushes the block. -/
def Blockchain.add_block {Sig PubKey : Type} (C : CryptoPrims Sig PubKey)
    (bc : Blockchain Sig PubKey) (block : Block Sig PubKey) :
    AddBlockResult Sig PubKey :=
  if bc.blocks.isEmpty then
    if block.header.prev_block_hash ≠ Hash.zero then
      .err BtcError.InvalidBlock bc
    else
      match bc.blocks.getLast? with
      | none => .panicked
      | some last_block =>
        if block.header.prev_block_hash ≠ C.hashBlock last_block then
          .err BtcError.InvalidBlock bc
        else if ¬ (C.hashHeader block.header).matches_target block.header.target then
          .err BtcError.InvalidBlock bc
        else if MerkleRoot.calculate C block.transactions ≠ block.header.merkle_root then
          .err BtcError.InvalidMerkleRoot bc
        else if block.header.timestamp ≤ last_block.header.timestamp then
          .err BtcError.InvalidBlock bc
        else
          .panicked
  else
    .ok { bc with blocks := bc.blocks ++ [block] }

/- u64 addition of the source (release-profile semantics: wraps modulo 2 ^ 64). -/
def u64Add (a b : Nat) : Nat := (a + b) % 2 ^ 64

/- types.rs, Block::verify_transactions, inner loop over the inputs of one
   transaction. Carries the running input_value accumulator and the
   per-transaction scratch map named inputs in the source. Returns the final
   input_value on success. -/
def verifyInputsLoop {Sig PubKey : Type} (C : CryptoPrims Sig PubKey)
    (utxos : UtxoMap PubKey) :
    List (TransactionInput Sig) → Nat → UtxoMap PubKey → Except BtcError Nat
  | [], input_value, _ => .ok input_value
  | input :: rest, input_value, inputs =>
    match utxos input.prev_transaction_output_hash with
    | none => .error BtcError.InvalidTransaction
    | some prev_output =>
      if UtxoMap.contains_key inputs input.prev_transaction_output_hash then
        .error BtcError.InvalidTransaction
      else if C.sigVerify input.signature input.prev_transaction_output_hash
          prev_output.pubkey = false then
        .error BtcError.InvalidTransaction
      else
        verifyInputsLoop C utxos rest (u64Add input_value prev_output.value)
          (UtxoMap.insert inputs input.prev_transaction_output_hash prev_output)

/- types.rs, Block::verify_transactions, the loop accumulating output_value. -/
def sumOutputValues {PubKey : Type} :
    List (TransactionOutput PubKey) → Nat → Nat
  | [], output_value => output_value
  | output :: rest, output_value => sumOutputValues rest (u64Add output_value output.value)

/- types.rs, Block::verify_transactions, body of the per-transaction loop. -/
def checkTransaction {Sig PubKey : Type} (C : CryptoPrims Sig PubKey)
    (utxos : UtxoMap PubKey) (transaction : Transaction Sig PubKey) :
    Except BtcError Unit :=
  match verifyInputsLoop C utxos transaction.inputs 0 UtxoMap.empty with
  | .error e => .error e
  | .ok input_value =>
    let output_value := sumOutputValues transaction.outputs 0
    if input_value < output_value then .error BtcError.InvalidTransaction
    else .ok ()

/- types.rs, Block::verify_transactions, outer loop over the transactions. -/
def verifyTxLoop {Sig PubKey : Type} (C : CryptoPrims Sig PubKey)
    (utxos : UtxoMap PubKey) :
    List (Transaction Sig PubKey) → Except BtcError Unit
  | [] => .ok ()
  | transaction :: rest =>
    match checkTransaction C utxos transaction with
    | .error e => .error e
    | .ok _ => verifyTxLoop C utxos rest

/- types.rs, Block::verify_transactions. -/
def Block.verify_transactions {Sig PubKey : Type} (C : CryptoPrims Sig PubKey)
    (b : Block Sig PubKey) (utxos : UtxoMap PubKey) : Except BtcError Unit :=
  if b.transactions.isEmpty then .error BtcError.InvalidTransaction
  else verifyTxLoop C utxos b.transactions

/- types.rs, Blockchain::rebuild_utxos, body of the per-transaction replay:
   remove every referenced input hash, then insert every output keyed by the
   hash of the output itself. -/
def applyTxUtxos {Sig PubKey : Type} (C : CryptoPrims Sig PubKey)
    (utxos : UtxoMap PubKey) (transaction : Transaction Sig PubKey) :
    UtxoMap PubKey :=
  let afterInputs := transaction.inputs.foldl
    (fun u input => UtxoMap.remove u input.prev_transaction_output_hash) utxos
  transaction.outputs.foldl
    (fun u output => UtxoMap.insert u (C.hashOutput output) output) afterInputs

/- types.rs, Blockchain::rebuild_utxos. Note the source iterates over the
   blocks mutating self.utxos in place: the replay starts from the current
   UTXO set of the receiver, which is not cleared first. -/
def Blockchain.rebuild_utxos {Sig PubKey : Type} (C : CryptoPrims Sig PubKey)
    (bc : Blockchain Sig PubKey) : Blockchain Sig PubKey :=
  { bc with
    utxos := bc.blocks.foldl
      (fun u block => block.transactions.foldl (applyTxUtxos C) u) bc.utxos }

/- Reference definitions written from the words of the spec (section 4.4),
   used to compare rebuild_utxos against the pure fold the spec describes. -/

/-- Spec 4.4 reference: remove all referenced outputs of a list of inputs. -/
def specRemoveInputs {Sig PubKey : Type} :
    List (TransactionInput Sig) → UtxoMap PubKey → UtxoMap PubKey
  | [], m => m
  | i :: rest, m => specRemoveInputs rest (UtxoMap.remove m i.prev_transaction_output_hash)

/-- Spec 4.4 reference: insert all outputs of a list, each keyed by its own hash. -/
def specInsertOutputs {Sig PubKey : Type} (C : CryptoPrims Sig PubKey) :
    List (TransactionOutput PubKey) → UtxoMap PubKey → UtxoMap PubKey
  | [], m => m
  | o :: rest, m => specInsertOutputs C rest (UtxoMap.insert m (C.hashOutput o) o)

/-- Spec 4.4 reference: replay the transactions of one block in order. -/
def specReplayTxs {Sig PubKey : Type} (C : CryptoPrims Sig PubKey) :
    List (Transaction Sig PubKey) → UtxoMap PubKey → UtxoMap PubKey
  | [], m => m
  | t :: rest, m =>
    specReplayTxs C rest (specInsertOutputs C t.outputs (specRemoveInputs t.inputs m))

/-- Spec 4.4 reference: replay every block in chain order. -/
def specReplayBlocks {Sig PubKey : Type} (C : CryptoPrims Sig PubKey) :
    List (Block Sig PubKey) → UtxoMap PubKey → UtxoMap PubKey
  | [], m => m
  | b :: rest, m => specReplayBlocks C rest (specReplayTxs C b.transactions m)

/-- Spec 4.4 reference: the pure fold over the block sequence starting from
the empty map, as the rebuild claim words it. -/
def utxoFoldFromEmptySpec {Sig PubKey : Type} (C : CryptoPrims Sig PubKey)
    (blocks : List (Block Sig PubKey)) : UtxoMap PubKey :=
  specReplayBlocks C blocks UtxoMap.empty

/- Exact (unbounded integer) value sums, as the value-conservation claim words
   them: the sum of the values of the resolved previous outputs of the inputs
   of a transaction, and the sum of the values of its own outputs. -/

def resolvedInputSum {Sig PubKey : Type} (utxos : UtxoMap PubKey)
    (inputs : List (TransactionInput Sig)) : Nat :=
  (inputs.map fun i =>
    match utxos i.prev_transaction_output_hash with
    | some o => o.value
    | none => 0).sum

def exactInputValue {Sig PubKey : Type} (utxos : UtxoMap PubKey)
    (t : Transaction Sig PubKey) : Nat :=
  resolvedInputSum utxos t.inputs

def exactOutputValue {Sig PubKey : Type} (t : Transaction Sig PubKey) : Nat :=
  (t.outputs.map fun o => o.value).sum

/- Concrete instantiation used by the closed evaluation theorems: trivial
   carrier types for keys and signatures, an all-zero digest family, and a
   signature check that always succeeds. -/

def C0 : CryptoPrims Unit Unit where
  hashOutput := fun _ => Hash.zero
  hashHeader := fun _ => Hash.zero
  hashBlock := fun _ => Hash.zero
  hashTransaction := fun _ => Hash.zero
  hashPair := fun _ _ => Hash.zero
  sigVerify := fun _ _ _ => true

/- A second instantiation whose header digest is the constant 5, so that a
   header hash can exceed a small target. -/
def Cbig : CryptoPrims Unit Unit where
  hashOutput := fun _ => Hash.zero
  hashHeader := fun _ => ⟨5⟩
  hashBlock := fun _ => Hash.zero
  hashTransaction := fun _ => Hash.zero
  hashPair := fun _ _ => Hash.zero
  sigVerify := fun _ _ _ => true

def h1 : Hash := ⟨1⟩

def o1 : TransactionOutput Unit := ⟨5, 0, ()⟩

def utx0 : UtxoMap Unit := UtxoMap.insert UtxoMap.empty h1 o1

def hdr0 : BlockHeader := ⟨0, 0, Hash.zero, Hash.zero, 0⟩

def g0 : Block Unit Unit := ⟨hdr0, []⟩

def bc1 : Blockchain Unit Unit := ⟨UtxoMap.empty, [g0]⟩

def bad1 : Block Unit Unit := ⟨⟨1, 0, ⟨7⟩, Hash.zero, 0⟩, []⟩

def b2 : Block Unit Unit := ⟨⟨1, 0, ⟨7⟩, Hash.zero, 3⟩, []⟩

def b3 : Block Unit Unit := ⟨⟨1, 0, ⟨7⟩, ⟨9⟩, 0⟩, []⟩

def oNew : TransactionOutput Unit := ⟨3, 1, ()⟩

def t4 : Transaction Unit Unit := ⟨[⟨h1, ()⟩], [oNew]⟩

def b4 : Block Unit Unit := ⟨⟨1, 0, ⟨7⟩, Hash.zero, 0⟩, [t4]⟩

def bc4 : Blockchain Unit Unit := ⟨utx0, [g0]⟩

def bcEmpty : Blockchain Unit Unit := ⟨UtxoMap.empty, []⟩

def bBad : Block Unit Unit := ⟨⟨0, 0, ⟨1⟩, Hash.zero, 0⟩, []⟩

def tA : Transaction Unit Unit := ⟨[⟨h1, ()⟩], []⟩

def tB : Transaction Unit Unit := ⟨[⟨h1, ()⟩], [⟨2, 2, ()⟩]⟩

def blk6 : Block Unit Unit := ⟨hdr0, [tA, tB]⟩

def t6w : Transaction Unit Unit := ⟨[⟨h1, ()⟩, ⟨h1, ()⟩], []⟩

def blk6w : Block Unit Unit := ⟨hdr0, [t6w]⟩

def oHalf : TransactionOutput Unit := ⟨2 ^ 63, 3, ()⟩

def t7 : Transaction Unit Unit := ⟨[⟨h1, ()⟩], [oHalf, oHalf]⟩

def blk7 : Block Unit Unit := ⟨hdr0, [t7]⟩

def t8 : Transaction Unit Unit := ⟨[], []⟩

def blk8 : Block Unit Unit := ⟨hdr0, [t8]⟩

def t8w : Transaction Unit Unit := ⟨[], [⟨3, 4, ()⟩]⟩

def blk8w : Block Unit Unit := ⟨hdr0, [t8w]⟩

def blk10 : Block Unit Unit := ⟨hdr0, [tA]⟩

def bc9 : Blockchain Unit Unit := ⟨utx0, []⟩

/- Theorems. -/

/-- General fact from sha256.rs: matches_target holds exactly when the numeric
value of the hash, read as an unsigned 256-bit integer, is at most the target
(equality included). -/
theorem matches_target_le_iff (h : Hash) (t : U256) :
    h.matches_target t = true ↔ h.val ≤ t := by
  simp [Hash.matches_target]

/-- C1 (code_bug evaluation): on a non-empty chain, add_block appends a block
whose prev_block_hash differs from the hash of the tip and returns Ok, because
every linkage check of the source sits in the dead empty-chain branch. The
claim requires rejection with InvalidBlock here. -/
theorem claim1_linkage_not_checked :
    Blockchain.add_block C0 bc1 bad1
      = AddBlockResult.ok ⟨bc1.utxos, bc1.blocks ++ [bad1]⟩ ∧
    bad1.header.prev_block_hash ≠ C0.hashBlock g0 := by
  exact ⟨rfl, by decide⟩

/-- C2 (code_bug evaluation): on a non-empty chain, add_block accepts a block
whose header hash (value 5) exceeds its target (3), because the proof-of-work
check of the source is dead code. The claim requires every accepted block to
satisfy the target. -/
theorem claim2_pow_not_checked :
    Blockchain.add_block Cbig bc1 b2
      = AddBlockResult.ok ⟨bc1.utxos, bc1.blocks ++ [b2]⟩ ∧
    (Cbig.hashHeader b2.header).matches_target b2.header.target = false := by
  exact ⟨rfl, by decide⟩

/-- C3 (code_bug evaluation): on a non-empty chain, add_block accepts a block
whose declared merkle_root (9) differs from the recomputed Merkle root of its
transactions (the zero hash for an empty list), because the Merkle check of
the source is dead code. The claim requires rejection with InvalidMerkleRoot. -/
theorem claim3_merkle_not_checked :
    Blockchain.add_block C0 bc1 b3
      = AddBlockResult.ok ⟨bc1.utxos, bc1.blocks ++ [b3]⟩ ∧
    MerkleRoot.calculate C0 b3.transactions ≠ b3.header.merkle_root := by
  refine ⟨rfl, ?_⟩
  have hcalc : MerkleRoot.calculate C0 b3.transactions = Hash.zero := by
    simp [MerkleRoot.calculate, merkleReduce, b3]
  rw [hcalc]
  decide

/-- C4 (code_bug evaluation): add_block returns Ok on a block spending the
unspent output stored at h1 and creating the output oNew, yet the UTXO set of
the result is exactly the one before the call: the spent output is still
present and the created output is absent. The claim requires the UTXO diff to
be applied on every Ok. -/
theorem claim4_utxo_diff_not_applied :
    Blockchain.add_block C0 bc4 b4
      = AddBlockResult.ok ⟨bc4.utxos, bc4.blocks ++ [b4]⟩ ∧
    bc4.utxos h1 = some o1 ∧
    bc4.utxos (C0.hashOutput oNew) = none := by
  refine ⟨rfl, ?_, ?_⟩
  · simp [bc4, utx0, UtxoMap.insert]
  · simp [bc4, utx0, UtxoMap.insert, UtxoMap.empty, C0, h1]
    decide

/-- C5: whenever add_block returns an error, the blockchain state it leaves
behind (block sequence and UTXO set) is exactly the state before the call:
no error path of the source mutates the receiver before returning. -/
theorem claim5_error_leaves_state_unchanged {Sig PubKey : Type}
    (C : CryptoPrims Sig PubKey) (bc : Blockchain Sig PubKey)
    (block : Block Sig PubKey) (e : BtcError) (bc' : Blockchain Sig PubKey) :
    Blockchain.add_block C bc block = AddBlockResult.err e bc' → bc' = bc := by
  intro h
  unfold Blockchain.add_block at h
  split at h
  · split at h
    · cases h
      rfl
    · split at h
      · cases h
      · split at h
        · cases h
          rfl
        · split at h
          · cases h
            rfl
          · split at h
            · cases h
              rfl
            · split at h
              · cases h
                rfl
              · cases h
  · cases h

/-- Witness for C5: on the empty chain, a block with a non-zero
prev_block_hash is rejected with InvalidBlock and the state is unchanged. -/
theorem claim5_witness :
    Blockchain.add_block C0 bcEmpty bBad
      = AddBlockResult.err BtcError.InvalidBlock bcEmpty ∧
    bcEmpty = bcEmpty :=
  ⟨rfl, claim5_error_leaves_state_unchanged C0 bcEmpty bBad
    BtcError.InvalidBlock bcEmpty rfl⟩

/-- Every error produced by the input loop of verify_transactions is
InvalidTransaction. -/
theorem verifyInputsLoop_error_eq {Sig PubKey : Type} (C : CryptoPrims Sig PubKey)
    (utxos : UtxoMap PubKey) :
    ∀ (inputs : List (TransactionInput Sig)) (iv : Nat) (seen : UtxoMap PubKey)
      (e : BtcError),
      verifyInputsLoop C utxos inputs iv seen = Except.error e →
      e = BtcError.InvalidTransaction := by
  intro inputs
  induction inputs with
  | nil =>
    intro iv seen e h
    simp [verifyInputsLoop] at h
  | cons i rest ih =>
    intro iv seen e h
    simp only [verifyInputsLoop] at h
    split at h
    · cases h
      rfl
    · split at h
      · cases h
        rfl
      · split at h
        · cases h
          rfl
        · exact ih _ _ _ h

/-- Every error produced by the per-transaction check of verify_transactions is
InvalidTransaction. -/
theorem checkTransaction_error_eq {Sig PubKey : Type} (C : CryptoPrims Sig PubKey)
    (utxos : UtxoMap PubKey) (t : Transaction Sig PubKey) (e : BtcError) :
    checkTransaction C utxos t = Except.error e → e = BtcError.InvalidTransaction := by
  intro h
  simp only [checkTransaction] at h
  split at h
  · rename_i e1 heq
    cases h
    exact verifyInputsLoop_error_eq C utxos t.inputs 0 UtxoMap.empty _ heq
  · split at h
    · cases h
      rfl
    · cases h

/-- Every error produced by the transaction loop of verify_transactions is
InvalidTransaction. -/
theorem verifyTxLoop_error_eq {Sig PubKey : Type} (C : CryptoPrims Sig PubKey)
    (utxos : UtxoMap PubKey) :
    ∀ (ts : List (Transaction Sig PubKey)) (e : BtcError),
      verifyTxLoop C utxos ts = Except.error e → e = BtcError.InvalidTransaction := by
  intro ts
  induction ts with
  | nil =>
    intro e h
    simp [verifyTxLoop] at h
  | cons t rest ih =>
    intro e h
    simp only [verifyTxLoop] at h
    split at h
    · rename_i e1 heq
      cases h
      exact checkTransaction_error_eq C utxos t _ heq
    · exact ih e h

/-- verify_transactions returns Ok or the error InvalidTransaction: no other
outcome exists. -/
theorem verify_transactions_ok_or_invalid {Sig PubKey : Type}
    (C : CryptoPrims Sig PubKey) (b : Block Sig PubKey) (utxos : UtxoMap PubKey) :
    Block.verify_transactions C b utxos = Except.ok () ∨
    Block.verify_transactions C b utxos = Except.error BtcError.InvalidTransaction := by
  unfold Block.verify_transactions
  split
  · right
    rfl
  · cases hv : verifyTxLoop C utxos b.transactions with
    | ok u =>
      left
      cases u
      rfl
    | error e =>
      right
      rw [verifyTxLoop_error_eq C utxos b.transactions e hv]

/-- When the transaction loop succeeds, every transaction of the list passes
the per-transaction check. -/
theorem verifyTxLoop_ok_forall {Sig PubKey : Type} (C : CryptoPrims Sig PubKey)
    (utxos : UtxoMap PubKey) :
    ∀ (ts : List (Transaction Sig PubKey)),
      verifyTxLoop C utxos ts = Except.ok () →
      ∀ t ∈ ts, checkTransaction C utxos t = Except.ok () := by
  intro ts
  induction ts with
  | nil =>
    intro _ t ht
    cases ht
  | cons t2 rest ih =>
    intro h t ht
    simp only [verifyTxLoop] at h
    split at h
    · cases h
    · rename_i u heq
      rcases List.mem_cons.mp ht with rfl | hmem
      · cases u
        exact heq
      · exact ih h t hmem

/-- When the input loop succeeds, the referenced previous-output hashes of the
processed inputs are pairwise distinct, and none of them was present in the
scratch map the loop started from. -/
theorem verifyInputsLoop_ok_nodup {Sig PubKey : Type} (C : CryptoPrims Sig PubKey)
    (utxos : UtxoMap PubKey) :
    ∀ (inputs : List (TransactionInput Sig)) (iv : Nat) (seen : UtxoMap PubKey)
      (r : Nat),
      verifyInputsLoop C utxos inputs iv seen = Except.ok r →
      (inputs.map fun i => i.prev_transaction_output_hash).Nodup ∧
      ∀ i ∈ inputs, seen i.prev_transaction_output_hash = none := by
  intro inputs
  induction inputs with
  | nil =>
    intro iv seen r _
    exact ⟨List.nodup_nil, by intro i hi; cases hi⟩
  | cons i rest ih =>
    intro iv seen r h
    simp only [verifyInputsLoop] at h
    split at h
    · cases h
    · rename_i prev_output hu
      by_cases hc : UtxoMap.contains_key seen i.prev_transaction_output_hash = true
      · rw [if_pos hc] at h
        cases h
      · rw [if_neg hc] at h
        by_cases hs : C.sigVerify i.signature i.prev_transaction_output_hash
            prev_output.pubkey = false
        · rw [if_pos hs] at h
          cases h
        · rw [if_neg hs] at h
          obtain ⟨hnodup, hseen⟩ := ih _ _ r h
          have hseennone : seen i.prev_transaction_output_hash = none := by
            unfold UtxoMap.contains_key at hc
            cases hv : seen i.prev_transaction_output_hash with
            | none => rfl
            | some v =>
              rw [hv] at hc
              simp at hc
          have hnotmem : i.prev_transaction_output_hash ∉
              rest.map fun j => j.prev_transaction_output_hash := by
            intro hmem
            obtain ⟨j, hj, hjp⟩ := List.mem_map.mp hmem
            have h2 := hseen j hj
            simp only [UtxoMap.insert] at h2
            rw [if_pos hjp] at h2
            exact Option.noConfusion h2
          refine ⟨?_, ?_⟩
          · simp only [List.map_cons]
            exact List.nodup_cons.mpr ⟨hnotmem, hnodup⟩
          · intro j hj
            rcases List.mem_cons.mp hj with rfl | hjrest
            · exact hseennone
            · have h2 := hseen j hjrest
              simp only [UtxoMap.insert] at h2
              by_cases hje : j.prev_transaction_output_hash
                  = i.prev_transaction_output_hash
              · rw [if_pos hje] at h2
                exact Option.noConfusion h2
              · rw [if_neg hje] at h2
                exact h2

/-- When the input loop succeeds, the returned accumulator is the exact sum of
the resolved previous-output values, wrapped modulo 2 ^ 64 and shifted by the
initial accumulator. -/
theorem verifyInputsLoop_ok_value {Sig PubKey : Type} (C : CryptoPrims Sig PubKey)
    (utxos : UtxoMap PubKey) :
    ∀ (inputs : List (TransactionInput Sig)) (iv : Nat) (seen : UtxoMap PubKey)
      (r : Nat), iv < 2 ^ 64 →
      verifyInputsLoop C utxos inputs iv seen = Except.ok r →
      r = (iv + resolvedInputSum utxos inputs) % 2 ^ 64 := by
  intro inputs
  induction inputs with
  | nil =>
    intro iv seen r hiv h
    simp only [verifyInputsLoop] at h
    cases h
    simp only [resolvedInputSum, List.map_nil, List.sum_nil, Nat.add_zero]
    omega
  | cons i rest ih =>
    intro iv seen r hiv h
    simp only [verifyInputsLoop] at h
    split at h
    · cases h
    · rename_i prev_output hu
      by_cases hc : UtxoMap.contains_key seen i.prev_transaction_output_hash = true
      · rw [if_pos hc] at h
        cases h
      · rw [if_neg hc] at h
        by_cases hs : C.sigVerify i.signature i.prev_transaction_output_hash
            prev_output.pubkey = false
        · rw [if_pos hs] at h
          cases h
        · rw [if_neg hs] at h
          have hlt : u64Add iv prev_output.value < 2 ^ 64 := by
            unfold u64Add
            exact Nat.mod_lt _ (by norm_num)
          have hr := ih _ _ r hlt h
          rw [hr]
          simp only [u64Add]
          rw [Nat.mod_add_mod]
          have hres : resolvedInputSum utxos (i :: rest)
              = prev_output.value + resolvedInputSum utxos rest := by
            simp [resolvedInputSum, hu]
          rw [hres]
          omega

/-- The output accumulation loop computes the exact output sum wrapped modulo
2 ^ 64, shifted by the initial accumulator. -/
theorem sumOutputValues_eq {PubKey : Type} :
    ∀ (outs : List (TransactionOutput PubKey)) (acc : Nat), acc < 2 ^ 64 →
      sumOutputValues outs acc = (acc + (outs.map fun o => o.value).sum) % 2 ^ 64 := by
  intro outs
  induction outs with
  | nil =>
    intro acc hacc
    simp only [sumOutputValues, List.map_nil, List.sum_nil, Nat.add_zero]
    omega
  | cons o rest ih =>
    intro acc hacc
    simp only [sumOutputValues]
    have hlt : u64Add acc o.value < 2 ^ 64 := by
      unfold u64Add
      exact Nat.mod_lt _ (by norm_num)
    rw [ih _ hlt]
    simp only [u64Add]
    rw [Nat.mod_add_mod]
    have hsum : ((o :: rest).map fun o => o.value).sum
        = o.value + (rest.map fun o => o.value).sum := by
      simp
    rw [hsum]
    omega

/-- When the per-transaction check succeeds, the referenced previous-output
hashes of the inputs of the transaction are pairwise distinct. -/
theorem checkTransaction_ok_nodup {Sig PubKey : Type} (C : CryptoPrims Sig PubKey)
    (utxos : UtxoMap PubKey) (t : Transaction Sig PubKey) :
    checkTransaction C utxos t = Except.ok () →
    (t.inputs.map fun i => i.prev_transaction_output_hash).Nodup := by
  intro h
  simp only [checkTransaction] at h
  split at h
  · cases h
  · rename_i r hr
    exact (verifyInputsLoop_ok_nodup C utxos t.inputs 0 UtxoMap.empty r hr).1

/-- When the per-transaction check succeeds, the wrapped output sum is at most
the wrapped resolved input sum. -/
theorem checkTransaction_ok_value {Sig PubKey : Type} (C : CryptoPrims Sig PubKey)
    (utxos : UtxoMap PubKey) (t : Transaction Sig PubKey) :
    checkTransaction C utxos t = Except.ok () →
    exactOutputValue t % 2 ^ 64 ≤ exactInputValue utxos t % 2 ^ 64 := by
  intro h
  simp only [checkTransaction] at h
  split at h
  · cases h
  · rename_i r hr
    by_cases hlt : r < sumOutputValues t.outputs 0
    · rw [if_pos hlt] at h
      cases h
    · rw [if_neg hlt] at h
      have hrv := verifyInputsLoop_ok_value C utxos t.inputs 0 UtxoMap.empty r
        (by norm_num) hr
      have hso := sumOutputValues_eq t.outputs 0 (by norm_num)
      rw [hrv, hso] at hlt
      simp only [Nat.zero_add] at hlt
      unfold exactOutputValue exactInputValue
      omega

/-- C6 counterexample: a block whose two distinct transactions both reference
the previously-unspent output stored at h1 is accepted by verify_transactions,
contradicting the claim that such a cross-transaction duplicate is rejected
with InvalidTransaction. The per-transaction scratch map of the source is
reset for every transaction and the UTXO set is not mutated during the check,
so a duplicate across transactions is never noticed. -/
theorem claim6_counterexample :
    Block.verify_transactions C0 blk6 utx0 = Except.ok () ∧
    (tA.inputs.map fun i => i.prev_transaction_output_hash) = [h1] ∧
    (tB.inputs.map fun i => i.prev_transaction_output_hash) = [h1] ∧
    blk6.transactions = [tA, tB] := by
  exact ⟨rfl, rfl, rfl, rfl⟩

/-- C6 (amended): within a single transaction no two inputs may reference the
same previous-output hash: any block in which some transaction repeats a
referenced hash is rejected by verify_transactions with InvalidTransaction.
Duplicates across different transactions of the block are not detected. -/
theorem claim6_intra_transaction_double_spend {Sig PubKey : Type}
    (C : CryptoPrims Sig PubKey) (utxos : UtxoMap PubKey) (b : Block Sig PubKey) :
    (∃ t ∈ b.transactions,
      ¬ (t.inputs.map fun i => i.prev_transaction_output_hash).Nodup) →
    Block.verify_transactions C b utxos = Except.error BtcError.InvalidTransaction := by
  rintro ⟨t, ht, hdup⟩
  rcases verify_transactions_ok_or_invalid C b utxos with hok | herr
  · exfalso
    have hok2 := hok
    unfold Block.verify_transactions at hok2
    split at hok2
    · cases hok2
    · exact hdup (checkTransaction_ok_nodup C utxos t
        (verifyTxLoop_ok_forall C utxos b.transactions hok2 t ht))
  · exact herr

/-- Witness for C6 (amended): a single transaction spending the output at h1
twice is rejected with InvalidTransaction. -/
theorem claim6_witness :
    Block.verify_transactions C0 blk6w utx0 = Except.error BtcError.InvalidTransaction :=
  claim6_intra_transaction_double_spend C0 utx0 blk6w ⟨t6w, by decide, by decide⟩

/-- C7 counterexample: a transaction resolving a single input of value 5 and
declaring two outputs of value 2 ^ 63 each is accepted by verify_transactions:
the u64 output accumulator wraps to 0, so the check passes although the exact
output sum 2 ^ 64 strictly exceeds the exact input sum 5. -/
theorem claim7_counterexample :
    Block.verify_transactions C0 blk7 utx0 = Except.ok () ∧
    exactInputValue utx0 t7 < exactOutputValue t7 ∧
    blk7.transactions = [t7] := by
  refine ⟨rfl, by decide, rfl⟩

/-- C7 (amended): for every transaction of a block accepted by
verify_transactions, the sums are accumulated in 64-bit wrapping arithmetic
and the wrapped output sum is at most the wrapped resolved input sum; when
both exact sums lie below 2 ^ 64 this yields exact value conservation. -/
theorem claim7_value_conservation_wrapped {Sig PubKey : Type}
    (C : CryptoPrims Sig PubKey) (utxos : UtxoMap PubKey) (b : Block Sig PubKey) :
    Block.verify_transactions C b utxos = Except.ok () →
    ∀ t ∈ b.transactions,
      exactOutputValue t % 2 ^ 64 ≤ exactInputValue utxos t % 2 ^ 64 ∧
      (exactInputValue utxos t < 2 ^ 64 → exactOutputValue t < 2 ^ 64 →
        exactOutputValue t ≤ exactInputValue utxos t) := by
  intro hok t ht
  unfold Block.verify_transactions at hok
  split at hok
  · cases hok
  · have hct := verifyTxLoop_ok_forall C utxos b.transactions hok t ht
    have hv := checkTransaction_ok_value C utxos t hct
    refine ⟨hv, ?_⟩
    intro hin hout
    rw [Nat.mod_eq_of_lt hin, Nat.mod_eq_of_lt hout] at hv
    exact hv

/-- Witness for C7 (amended): the block holding the empty transaction is
accepted and the wrapped inequality holds for it. -/
theorem claim7_witness :
    Block.verify_transactions C0 blk8 utx0 = Except.ok () ∧
    exactOutputValue t8 % 2 ^ 64 ≤ exactInputValue utx0 t8 % 2 ^ 64 :=
  ⟨rfl, (claim7_value_conservation_wrapped C0 utx0 blk8 rfl t8 (by decide)).1⟩

/-- C8 counterexample: a block holding one transaction with zero inputs and
zero outputs is accepted by verify_transactions, contradicting the claim that
every zero-input transaction is rejected: the source has no zero-input check
and the value comparison 0 < 0 fails. -/
theorem claim8_counterexample :
    Block.verify_transactions C0 blk8 utx0 = Except.ok () ∧
    t8 ∈ blk8.transactions ∧ t8.inputs = [] := by
  exact ⟨rfl, by decide, rfl⟩

/-- C8 (amended): verify_transactions rejects the empty transaction list with
InvalidTransaction, and rejects a zero-input transaction exactly through the
value check: it is rejected when its wrapped output sum is positive, so a
zero-input transaction with zero total output value is accepted. -/
theorem claim8_empty_list_and_zero_input {Sig PubKey : Type}
    (C : CryptoPrims Sig PubKey) (utxos : UtxoMap PubKey) (b : Block Sig PubKey) :
    (b.transactions = [] →
      Block.verify_transactions C b utxos = Except.error BtcError.InvalidTransaction) ∧
    (∀ t ∈ b.transactions, t.inputs = [] → 0 < sumOutputValues t.outputs 0 →
      Block.verify_transactions C b utxos = Except.error BtcError.InvalidTransaction) := by
  constructor
  · intro hnil
    unfold Block.verify_transactions
    rw [hnil]
    rfl
  · intro t ht hinputs hpos
    rcases verify_transactions_ok_or_invalid C b utxos with hok | herr
    · exfalso
      have hok2 := hok
      unfold Block.verify_transactions at hok2
      split at hok2
      · cases hok2
      · have hct := verifyTxLoop_ok_forall C utxos b.transactions hok2 t ht
        simp only [checkTransaction, hinputs, verifyInputsLoop] at hct
        rw [if_pos hpos] at hct
        cases hct
    · exact herr

/-- Witness for C8 (amended): a zero-input transaction declaring an output of
value 3 is rejected with InvalidTransaction. -/
theorem claim8_witness :
    Block.verify_transactions C0 blk8w utx0 = Except.error BtcError.InvalidTransaction :=
  (claim8_empty_list_and_zero_input C0 utx0 blk8w).2 t8w (by decide) rfl (by decide)

/-- When every input of a list resolves in the UTXO set with a verifying
signature, the referenced hashes are pairwise distinct, and none of them is in
the scratch map yet, the input loop succeeds. -/
theorem verifyInputsLoop_ok_exists {Sig PubKey : Type} (C : CryptoPrims Sig PubKey)
    (utxos : UtxoMap PubKey) :
    ∀ (inputs : List (TransactionInput Sig)) (iv : Nat) (seen : UtxoMap PubKey),
      (∀ i ∈ inputs, ∃ po, utxos i.prev_transaction_output_hash = some po ∧
        C.sigVerify i.signature i.prev_transaction_output_hash po.pubkey = true) →
      (inputs.map fun i => i.prev_transaction_output_hash).Nodup →
      (∀ i ∈ inputs, seen i.prev_transaction_output_hash = none) →
      ∃ r, verifyInputsLoop C utxos inputs iv seen = Except.ok r := by
  intro inputs
  induction inputs with
  | nil =>
    intro iv seen _ _ _
    exact ⟨iv, rfl⟩
  | cons i rest ih =>
    intro iv seen hres hnodup hseen
    obtain ⟨po, hpo, hsig⟩ := hres i (List.mem_cons_self i rest)
    simp only [List.map_cons, List.nodup_cons] at hnodup
    have hcontains : UtxoMap.contains_key seen i.prev_transaction_output_hash = false := by
      unfold UtxoMap.contains_key
      rw [hseen i (List.mem_cons_self i rest)]
      rfl
    simp only [verifyInputsLoop, hpo]
    rw [if_neg (by rw [hcontains]; simp)]
    rw [if_neg (by rw [hsig]; simp)]
    refine ih _ _ ?_ ?_ ?_
    · intro j hj
      exact hres j (List.mem_cons_of_mem i hj)
    · exact hnodup.2
    · intro j hj
      have hne : j.prev_transaction_output_hash ≠ i.prev_transaction_output_hash := by
        intro heq
        exact hnodup.1 (heq ▸ List.mem_map_of_mem _ hj)
      simp only [UtxoMap.insert]
      rw [if_neg hne]
      exact hseen j (List.mem_cons_of_mem i hj)

/-- C10: a transaction with an empty output list passes verify_transactions
(stated for the block holding exactly that transaction) provided every input
resolves in the UTXO set, the referenced hashes are pairwise distinct, and
every signature verifies: the output sum is 0, the value check 0 over the
input value passes, and the whole input value becomes an implicit fee. -/
theorem claim10_empty_outputs_accepted {Sig PubKey : Type}
    (C : CryptoPrims Sig PubKey) (utxos : UtxoMap PubKey) (hdr : BlockHeader)
    (t : Transaction Sig PubKey) :
    t.outputs = [] →
    (∀ i ∈ t.inputs, ∃ po, utxos i.prev_transaction_output_hash = some po ∧
      C.sigVerify i.signature i.prev_transaction_output_hash po.pubkey = true) →
    (t.inputs.map fun i => i.prev_transaction_output_hash).Nodup →
    Block.verify_transactions C ⟨hdr, [t]⟩ utxos = Except.ok () := by
  intro houts hres hnodup
  obtain ⟨r, hr⟩ := verifyInputsLoop_ok_exists C utxos t.inputs 0 UtxoMap.empty
    hres hnodup (fun i _ => rfl)
  have hct : checkTransaction C utxos t = Except.ok () := by
    simp only [checkTransaction, hr, houts, sumOutputValues]
    simp
  simp only [Block.verify_transactions, verifyTxLoop, hct]
  rfl

/-- Witness for C10: the transaction spending the output at h1 with no outputs
is accepted. -/
theorem claim10_witness :
    Block.verify_transactions C0 blk10 utx0 = Except.ok () := by
  have hres : ∀ i ∈ tA.inputs, ∃ po, utx0 i.prev_transaction_output_hash = some po ∧
      C0.sigVerify i.signature i.prev_transaction_output_hash po.pubkey = true := by
    intro i hi
    simp only [tA, List.mem_singleton] at hi
    subst hi
    exact ⟨o1, rfl, rfl⟩
  exact claim10_empty_outputs_accepted C0 utx0 hdr0 tA rfl hres (by decide)

/-- The left fold removing referenced inputs equals the spec-side recursion. -/
theorem foldl_remove_eq_spec {Sig PubKey : Type} :
    ∀ (l : List (TransactionInput Sig)) (m : UtxoMap PubKey),
      l.foldl (fun u input => UtxoMap.remove u input.prev_transaction_output_hash) m
        = specRemoveInputs l m := by
  intro l
  induction l with
  | nil =>
    intro m
    rfl
  | cons i rest ih =>
    intro m
    simp only [List.foldl_cons, specRemoveInputs]
    exact ih _

/-- The left fold inserting outputs keyed by their own hash equals the
spec-side recursion. -/
theorem foldl_insert_eq_spec {Sig PubKey : Type} (C : CryptoPrims Sig PubKey) :
    ∀ (l : List (TransactionOutput PubKey)) (m : UtxoMap PubKey),
      l.foldl (fun u output => UtxoMap.insert u (C.hashOutput output) output) m
        = specInsertOutputs C l m := by
  intro l
  induction l with
  | nil =>
    intro m
    rfl
  | cons o rest ih =>
    intro m
    simp only [List.foldl_cons, specInsertOutputs]
    exact ih _

/-- The per-transaction replay of rebuild_utxos equals the spec-side replay. -/
theorem applyTxUtxos_eq_spec {Sig PubKey : Type} (C : CryptoPrims Sig PubKey)
    (m : UtxoMap PubKey) (t : Transaction Sig PubKey) :
    applyTxUtxos C m t = specInsertOutputs C t.outputs (specRemoveInputs t.inputs m) := by
  unfold applyTxUtxos
  rw [foldl_remove_eq_spec, foldl_insert_eq_spec]

/-- The transaction-list fold of rebuild_utxos equals the spec-side replay. -/
theorem foldl_txs_eq_spec {Sig PubKey : Type} (C : CryptoPrims Sig PubKey) :
    ∀ (ts : List (Transaction Sig PubKey)) (m : UtxoMap PubKey),
      ts.foldl (applyTxUtxos C) m = specReplayTxs C ts m := by
  intro ts
  induction ts with
  | nil =>
    intro m
    rfl
  | cons t rest ih =>
    intro m
    simp only [List.foldl_cons, specReplayTxs]
    rw [applyTxUtxos_eq_spec]
    exact ih _

/-- The block-list fold of rebuild_utxos equals the spec-side replay. -/
theorem foldl_blocks_eq_spec {Sig PubKey : Type} (C : CryptoPrims Sig PubKey) :
    ∀ (bs : List (Block Sig PubKey)) (m : UtxoMap PubKey),
      bs.foldl (fun u block => block.transactions.foldl (applyTxUtxos C) u) m
        = specReplayBlocks C bs m := by
  intro bs
  induction bs with
  | nil =>
    intro m
    rfl
  | cons b rest ih =>
    intro m
    simp only [List.foldl_cons, specReplayBlocks]
    rw [foldl_txs_eq_spec]
    exact ih _

/-- C9 counterexample: on a ledger whose UTXO set already holds the output at
h1 and whose block list is empty, rebuild_utxos leaves the UTXO set as it was,
which differs from the pure fold over the (empty) block sequence started from
the empty map: the source never clears the set before replaying. -/
theorem claim9_counterexample :
    (Blockchain.rebuild_utxos C0 bc9).utxos ≠ utxoFoldFromEmptySpec C0 bc9.blocks := by
  intro h
  have h1e := congrFun h h1
  simp only [Blockchain.rebuild_utxos, utxoFoldFromEmptySpec, specReplayBlocks, bc9,
    List.foldl_nil, utx0, UtxoMap.insert, UtxoMap.empty] at h1e
  simp at h1e

/-- C9 (amended): after rebuild_utxos the UTXO set equals the pure spec replay
of the block sequence started from the current UTXO set of the ledger; it
equals the fold started from the empty map whenever the set was empty before
the call. -/
theorem claim9_rebuild_replays_from_current {Sig PubKey : Type}
    (C : CryptoPrims Sig PubKey) (bc : Blockchain Sig PubKey) :
    (Blockchain.rebuild_utxos C bc).utxos = specReplayBlocks C bc.blocks bc.utxos ∧
    (bc.utxos = UtxoMap.empty →
      (Blockchain.rebuild_utxos C bc).utxos = utxoFoldFromEmptySpec C bc.blocks) := by
  constructor
  · simp only [Blockchain.rebuild_utxos]
    exact foldl_blocks_eq_spec C bc.blocks bc.utxos
  · intro hempty
    simp only [Blockchain.rebuild_utxos]
    rw [foldl_blocks_eq_spec C bc.blocks bc.utxos, hempty]
    rfl

/-- Witness for C9 (amended): on the chain of one block with an empty UTXO
set, the rebuilt set equals the fold from the empty map. -/
theorem claim9_witness :
    (Blockchain.rebuild_utxos C0 bc1).utxos = utxoFoldFromEmptySpec C0 bc1.blocks :=
  (claim9_rebuild_replays_from_current C0 bc1).2 rfl

end Rsbtc
